import Mathlib

/-!
Verification of the scikit-fda excerpt: the `VectorValued` basis
(`skfda/representation/basis/_vector_basis.py`), the `DDGTransformer`
(`skfda/preprocessing/dim_reduction/feature_extraction/_ddg_transformer.py`)
and `ParametricPlot` (`skfda/exploratory/visualization/_parametric_plot.py`).

Numpy arrays are embedded as records carrying their shape together with a
total entry function; claims speak only about entries inside the shape.
Real-valued entries are modelled by rationals.
-/

/-- A 2-D numpy array: shape `(rows, cols)` plus an entry function. -/
structure Arr2 where
  rows : Nat
  cols : Nat
  entry : Nat → Nat → ℚ

/-- A 3-D numpy array: shape `(d0, d1, d2)` plus an entry function. -/
structure Arr3 where
  d0 : Nat
  d1 : Nat
  d2 : Nat
  entry : Nat → Nat → Nat → ℚ

def arr2Zero : Arr2 := ⟨0, 0, fun _ _ => 0⟩

def arr3Zero : Arr3 := ⟨0, 0, 0, fun _ _ _ => 0⟩

instance : Inhabited Arr2 := ⟨arr2Zero⟩

instance : Inhabited Arr3 := ⟨arr3Zero⟩

/-- A scalar-valued child basis, as consumed by `VectorValued`.  The fields
mirror the attributes of the scalar `Basis` base class: `n_basis`,
`dim_domain`, `dim_codomain`, `domain_range` (one `(low, high)` pair per
domain dimension), the pointwise evaluation of the `i`-th basis function,
and the entries of its Gram matrix. -/
structure ScalarBasis where
  n_basis : Nat
  dim_domain : Nat
  dim_codomain : Nat
  domain_range : List (ℚ × ℚ)
  evalFun : Nat → ℚ → ℚ
  gramFun : Nat → Nat → ℚ

def scalarBasisZero : ScalarBasis := ⟨0, 0, 0, [], fun _ _ => 0, fun _ _ => 0⟩

instance : Inhabited ScalarBasis := ⟨scalarBasisZero⟩

/-- Modelled from the spec: scalar `Basis.evaluate` (the base class is not
under `src/`) returns an array of shape `(n_basis, n_points, 1)` whose entry
`(i, j, 0)` is the value of the `i`-th basis function at the `j`-th point. -/
def ScalarBasis.evaluate (b : ScalarBasis) (pts : List ℚ) : Arr3 :=
  ⟨b.n_basis, pts.length, 1, fun i j _ => b.evalFun i (pts.getD j 0)⟩

/-- Modelled from the spec: scalar `Basis.gram_matrix` (not under `src/`)
returns the `(n_basis, n_basis)` matrix of pairwise inner products. -/
def ScalarBasis.gram_matrix (b : ScalarBasis) : Arr2 :=
  ⟨b.n_basis, b.n_basis, fun i j => b.gramFun i j⟩

/-- Modelled from the spec: `_same_domain` (in `skfda._utils`, not under
`src/`) holds when two bases have an identical domain range. -/
def _same_domain (a b : ScalarBasis) : Prop := a.domain_range = b.domain_range

instance (a b : ScalarBasis) : Decidable (_same_domain a b) := by
  unfold _same_domain
  infer_instance

/-- Python exceptions that `VectorValued.__init__` (and the methods that call
it again, such as `_derivative_basis_and_coefs`) can raise. -/
inductive InitError
  | valueError (msg : String)
  | indexError
deriving DecidableEq

/-- The `VectorValued` basis object: the stored child list together with the
attributes set by the `super().__init__` call (`domain_range`, `n_basis`). -/
structure VectorValued where
  basis_list : List ScalarBasis
  domain_range : List (ℚ × ℚ)
  n_basis : Nat

/-- Embedding of `VectorValued.__init__`: checks that every child is scalar valued, then
that all children share the first child's domain dimension and domain range
(both generator-based checks are vacuously satisfied by an empty list), and
finally reads `basis_list[0].domain_range` — which on an empty list raises
`IndexError` rather than either `ValueError`. -/
def VectorValued.mk? (basis_list : List ScalarBasis) : Except InitError VectorValued :=
  if ¬ (∀ b ∈ basis_list, b.dim_codomain = 1) then
    .error (.valueError "The basis functions must be scalar valued")
  else if ∃ b ∈ basis_list,
      b.dim_domain ≠ (basis_list.headD scalarBasisZero).dim_domain ∨
      ¬ _same_domain b (basis_list.headD scalarBasisZero) then
    .error (.valueError "The basis must all have the same domain dimension and range")
  else
    match basis_list with
    | [] => .error .indexError
    | b₀ :: rest =>
        .ok { basis_list := b₀ :: rest,
              domain_range := b₀.domain_range,
              n_basis := ((b₀ :: rest).map ScalarBasis.n_basis).sum }

def VectorValued.dim_domain (v : VectorValued) : Nat :=
  (v.basis_list.headD scalarBasisZero).dim_domain

def VectorValued.dim_codomain (v : VectorValued) : Nat :=
  v.basis_list.length

/-- Inversion of a successful `VectorValued.mk?`. -/
theorem VectorValued.mk?_ok (bl : List ScalarBasis) (v : VectorValued)
    (h : VectorValued.mk? bl = .ok v) :
    v.basis_list = bl ∧
    v.n_basis = (bl.map ScalarBasis.n_basis).sum ∧
    v.domain_range = (bl.headD scalarBasisZero).domain_range ∧
    0 < bl.length ∧
    (∀ b ∈ bl, b.dim_codomain = 1) ∧
    (∀ b ∈ bl, b.dim_domain = (bl.headD scalarBasisZero).dim_domain ∧
      b.domain_range = (bl.headD scalarBasisZero).domain_range) := by
  unfold VectorValued.mk? at h
  split at h
  · exact absurd h (by simp)
  · split at h
    · exact absurd h (by simp)
    · rename_i h1 h2
      rw [not_not] at h1
      push_neg at h2
      cases bl with
      | nil => exact absurd h (by simp)
      | cons b₀ rest =>
          simp only [Except.ok.injEq] at h
          subst h
          refine ⟨rfl, rfl, rfl, by simp, h1, ?_⟩
          intro b hb
          have := h2 b hb
          exact ⟨this.1, this.2⟩

/-- Building a `VectorValued` from a valid, nonempty child list succeeds. -/
theorem VectorValued.mk?_ok_of_valid (b₀ : ScalarBasis) (rest : List ScalarBasis)
    (hc : ∀ b ∈ b₀ :: rest, b.dim_codomain = 1)
    (hd : ∀ b ∈ b₀ :: rest, b.dim_domain = b₀.dim_domain ∧ b.domain_range = b₀.domain_range) :
    VectorValued.mk? (b₀ :: rest) =
      .ok { basis_list := b₀ :: rest,
            domain_range := b₀.domain_range,
            n_basis := ((b₀ :: rest).map ScalarBasis.n_basis).sum } := by
  unfold VectorValued.mk?
  rw [if_neg, if_neg]
  · intro hex
    obtain ⟨b, hb, hbad⟩ := hex
    rcases hbad with hbad | hbad
    · exact hbad (hd b hb).1
    · exact hbad (hd b hb).2
  · exact not_not.mpr hc

/-- C7: Constructing a VectorValued basis validates that every child has
dim_codomain == 1 and that all children share the same dim_domain and
identical domain range; a violation of the first condition raises the
scalar-valued configuration error, a violation of only the second raises the
domain configuration error, and a configuration error is raised exactly when
one of the two conditions is violated. -/
theorem vector_valued_mk_validation (bl : List ScalarBasis) :
    ((¬ ∀ b ∈ bl, b.dim_codomain = 1) →
      VectorValued.mk? bl = .error (.valueError "The basis functions must be scalar valued")) ∧
    ((∀ b ∈ bl, b.dim_codomain = 1) →
      (∃ b ∈ bl, b.dim_domain ≠ (bl.headD scalarBasisZero).dim_domain ∨
        b.domain_range ≠ (bl.headD scalarBasisZero).domain_range) →
      VectorValued.mk? bl =
        .error (.valueError "The basis must all have the same domain dimension and range")) ∧
    ((∃ msg, VectorValued.mk? bl = .error (.valueError msg)) ↔
      ((∃ b ∈ bl, b.dim_codomain ≠ 1) ∨
       (∃ b ∈ bl, b.dim_domain ≠ (bl.headD scalarBasisZero).dim_domain ∨
         b.domain_range ≠ (bl.headD scalarBasisZero).domain_range))) := by
  refine ⟨?_, ?_, ?_⟩
  · intro h
    unfold VectorValued.mk?
    rw [if_pos h]
  · intro hc hex
    unfold VectorValued.mk?
    rw [if_neg (not_not.mpr hc), if_pos]
    obtain ⟨b, hb, hbad⟩ := hex
    exact ⟨b, hb, by
      rcases hbad with hbad | hbad
      · exact Or.inl hbad
      · exact Or.inr (by unfold _same_domain; exact hbad)⟩
  · constructor
    · rintro ⟨msg, hmsg⟩
      unfold VectorValued.mk? at hmsg
      split at hmsg
      · rename_i h1
        push_neg at h1
        exact Or.inl (by
          obtain ⟨b, hb, hb1⟩ := h1
          exact ⟨b, hb, hb1⟩)
      · split at hmsg
        · rename_i h2
          obtain ⟨b, hb, hbad⟩ := h2
          refine Or.inr ⟨b, hb, ?_⟩
          rcases hbad with hbad | hbad
          · exact Or.inl hbad
          · exact Or.inr (by unfold _same_domain at hbad; exact hbad)
        · cases bl with
          | nil => exact absurd hmsg (by simp)
          | cons b₀ rest => exact absurd hmsg (by simp)
    · rintro (⟨b, hb, hbad⟩ | hex)
      · refine ⟨"The basis functions must be scalar valued", ?_⟩
        unfold VectorValued.mk?
        rw [if_pos]
        intro hall
        exact hbad (hall b hb)
      · by_cases hc : ∀ b ∈ bl, b.dim_codomain = 1
        · refine ⟨"The basis must all have the same domain dimension and range", ?_⟩
          unfold VectorValued.mk?
          rw [if_neg (not_not.mpr hc), if_pos]
          obtain ⟨b, hb, hbad⟩ := hex
          refine ⟨b, hb, ?_⟩
          rcases hbad with hbad | hbad
          · exact Or.inl hbad
          · exact Or.inr (by unfold _same_domain; exact hbad)
        · refine ⟨"The basis functions must be scalar valued", ?_⟩
          unfold VectorValued.mk?
          rw [if_pos hc]

/-- C8: for a VectorValued basis built from scalar bases B1..Bk (k ≥ 1),
`n_basis` is the sum of the children's `n_basis`, `dim_codomain` is k, and
`domain_range` is the first child's. -/
theorem vector_valued_attributes (bl : List ScalarBasis) (v : VectorValued)
    (h : VectorValued.mk? bl = .ok v) :
    v.n_basis = (bl.map ScalarBasis.n_basis).sum ∧
    v.dim_codomain = bl.length ∧
    v.domain_range = (bl.headD scalarBasisZero).domain_range ∧
    1 ≤ bl.length := by
  obtain ⟨hb, hn, hr, hlen, _, _⟩ := VectorValued.mk?_ok bl v h
  exact ⟨hn, by rw [VectorValued.dim_codomain, hb], hr, hlen⟩

/-- C9: constructing a VectorValued basis from the empty child list fails with
an out-of-range indexing error (from `basis_list[0]`), not with the
configuration error of the two documented validation checks. -/
theorem vector_valued_empty_index_error :
    VectorValued.mk? [] = .error .indexError ∧
    ∀ msg, VectorValued.mk? ([] : List ScalarBasis) ≠ .error (.valueError msg) := by
  constructor
  · rfl
  · intro msg h
    rw [show VectorValued.mk? [] = .error .indexError from rfl] at h
    simp at h

/-- The sum of the first `i` entries of a list of sizes: the row (or column)
offset at which block `i` starts in a contiguous block partition. -/
def offsetAt (ns : List Nat) (i : Nat) : Nat := (ns.take i).sum

theorem offsetAt_zero (ns : List Nat) : offsetAt ns 0 = 0 := by
  simp [offsetAt]

theorem offsetAt_cons_succ (n : Nat) (ns : List Nat) (i : Nat) :
    offsetAt (n :: ns) (i + 1) = n + offsetAt ns i := by
  simp [offsetAt, List.take_succ_cons]

/-- The assignment loop of `VectorValued._evaluate`: for each child
evaluation `ev` (with `len(ev) = ev.d0`), write
`matrix[n_basis_eval : n_basis_eval + len(ev), :, i] = ev[..., 0]`, then
advance the offset by `len(ev)` and the coordinate slot by one. -/
def VectorValued.evalLoop : List Arr3 → Nat → Nat → (Nat → Nat → Nat → ℚ) → Nat → Nat → Nat → ℚ
  | [], _, _, m => m
  | ev :: rest, slot, off, m =>
      VectorValued.evalLoop rest (slot + 1) (off + ev.d0)
        (fun r j k =>
          if off ≤ r ∧ r < off + ev.d0 ∧ k = slot then ev.entry (r - off) j 0 else m r j k)

/-- Embedding of `VectorValued._evaluate`: start from `np.zeros((n_basis, len(pts),
dim_codomain))`, evaluate every child, and write each child evaluation into
its contiguous row band and its own coordinate slot. -/
def VectorValued._evaluate (v : VectorValued) (pts : List ℚ) : Arr3 :=
  { d0 := v.n_basis,
    d1 := pts.length,
    d2 := v.dim_codomain,
    entry := VectorValued.evalLoop (v.basis_list.map fun b => b.evaluate pts) 0 0
      (fun _ _ _ => 0) }

theorem evalLoop_below (evs : List Arr3) (slot off : Nat) (m : Nat → Nat → Nat → ℚ)
    (r j k : Nat) (h : r < off) :
    VectorValued.evalLoop evs slot off m r j k = m r j k := by
  induction evs generalizing slot off m with
  | nil => rfl
  | cons ev rest ih =>
      rw [VectorValued.evalLoop]
      rw [ih (slot + 1) (off + ev.d0) _ (Nat.lt_of_lt_of_le h (Nat.le_add_right off ev.d0))]
      have : ¬ off ≤ r := Nat.not_le.mpr h
      simp [this]

theorem evalLoop_band (evs : List Arr3) (i : Nat) (hi : i < evs.length)
    (r : Nat) (hr : r < (evs.getD i arr3Zero).d0) (j k slot off : Nat)
    (m : Nat → Nat → Nat → ℚ) :
    VectorValued.evalLoop evs slot off m (off + (offsetAt (evs.map Arr3.d0) i + r)) j k =
      if k = slot + i then (evs.getD i arr3Zero).entry r j 0
      else m (off + (offsetAt (evs.map Arr3.d0) i + r)) j k := by
  induction evs generalizing i slot off m with
  | nil => exact absurd hi (by simp)
  | cons ev rest ih =>
      cases i with
      | zero =>
          simp only [List.getD_cons_zero] at hr ⊢
          rw [List.map_cons, offsetAt_zero, Nat.zero_add]
          rw [VectorValued.evalLoop]
          rw [evalLoop_below _ _ _ _ _ _ _ (by omega)]
          have h1 : off ≤ off + r := Nat.le_add_right off r
          have h2 : off + r < off + ev.d0 := by omega
          by_cases hk : k = slot
          · simp [h1, h2, hk]
          · simp [hk]
      | succ i' =>
          have hi' : i' < rest.length := by simpa using hi
          simp only [List.getD_cons_succ] at hr ⊢
          rw [List.map_cons, offsetAt_cons_succ]
          rw [VectorValued.evalLoop]
          have harith : off + (ev.d0 + offsetAt (rest.map Arr3.d0) i' + r) =
              (off + ev.d0) + (offsetAt (rest.map Arr3.d0) i' + r) := by omega
          rw [harith]
          rw [ih i' hi' hr (slot + 1) (off + ev.d0) _]
          have hge : ¬ ((off + ev.d0) + (offsetAt (rest.map Arr3.d0) i' + r) < off + ev.d0) := by
            omega
          have hknat : slot + 1 + i' = slot + (i' + 1) := by omega
          rw [hknat]
          by_cases hk : k = slot + (i' + 1)
          · rw [if_pos hk, if_pos hk]
          · rw [if_neg hk, if_neg hk]
            simp [hge]

theorem getD_map_of_lt {α β : Type} (f : α → β) (l : List α) (i : Nat) (hi : i < l.length)
    (d : α) (d₂ : β) : (l.map f).getD i d₂ = f (l.getD i d) := by
  induction l generalizing i with
  | nil => exact absurd hi (by simp)
  | cons a rest ih =>
      cases i with
      | zero => simp
      | succ i' => simpa using ih i' (by simpa using hi)

theorem evaluate_d0 (b : ScalarBasis) (pts : List ℚ) :
    (b.evaluate pts).d0 = b.n_basis := rfl

/-- C1: evaluating a VectorValued basis at points `pts` yields an array of
shape `(n_basis, n_points, dim_codomain)`; the contiguous row band reserved
for child `i` (bands assigned in child order, band `i` of height
`Bi.n_basis`) holds `Bi.evaluate(pts)` in coordinate slot `i` and zero in
every other coordinate slot. -/
theorem evaluate_band_structure (bl : List ScalarBasis) (v : VectorValued)
    (hv : VectorValued.mk? bl = .ok v) (pts : List ℚ)
    (i : Nat) (hi : i < bl.length) (r : Nat)
    (hr : r < (bl.getD i scalarBasisZero).n_basis) (j k : Nat) :
    (VectorValued._evaluate v pts).d0 = v.n_basis ∧
    (VectorValued._evaluate v pts).d1 = pts.length ∧
    (VectorValued._evaluate v pts).d2 = v.dim_codomain ∧
    (VectorValued._evaluate v pts).entry
        (offsetAt (bl.map ScalarBasis.n_basis) i + r) j k =
      if k = i then ((bl.getD i scalarBasisZero).evaluate pts).entry r j 0 else 0 := by
  obtain ⟨hbl, -, -, -, -, -⟩ := VectorValued.mk?_ok bl v hv
  refine ⟨rfl, rfl, rfl, ?_⟩
  have hmm : ((bl.map fun b => b.evaluate pts).map Arr3.d0) = bl.map ScalarBasis.n_basis := by
    rw [List.map_map]
    rfl
  have hget : (bl.map fun b => b.evaluate pts).getD i arr3Zero =
      (bl.getD i scalarBasisZero).evaluate pts :=
    getD_map_of_lt _ bl i hi scalarBasisZero arr3Zero
  have hlen : i < (bl.map fun b => b.evaluate pts).length := by simpa using hi
  have hr' : r < ((bl.map fun b => b.evaluate pts).getD i arr3Zero).d0 := by
    rw [hget, evaluate_d0]
    exact hr
  have hband := evalLoop_band (bl.map fun b => b.evaluate pts) i hlen r hr' j k 0 0
    (fun _ _ _ => 0)
  simp only [Nat.zero_add] at hband
  rw [hmm] at hband
  simp only [VectorValued._evaluate, hbl]
  rw [hband, hget]

/-- Embedding of `scipy.linalg.block_diag`: blocks placed along the diagonal in order,
zeros everywhere else (the empty assembly is the empty matrix). -/
def blockDiag : List Arr2 → Arr2
  | [] => ⟨0, 0, fun _ _ => 0⟩
  | a :: rest =>
      let b := blockDiag rest
      ⟨a.rows + b.rows, a.cols + b.cols,
       fun r c =>
         if r < a.rows ∧ c < a.cols then a.entry r c
         else if a.rows ≤ r ∧ a.cols ≤ c then b.entry (r - a.rows) (c - a.cols)
         else 0⟩

/-- Embedding of `VectorValued._gram_matrix`: the block-diagonal assembly of the
children's Gram matrices, in child order. -/
def VectorValued._gram_matrix (v : VectorValued) : Arr2 :=
  blockDiag (v.basis_list.map ScalarBasis.gram_matrix)

theorem blockDiag_rows (l : List Arr2) : (blockDiag l).rows = (l.map Arr2.rows).sum := by
  induction l with
  | nil => rfl
  | cons a rest ih => simp [blockDiag, ih]

theorem blockDiag_cols (l : List Arr2) : (blockDiag l).cols = (l.map Arr2.cols).sum := by
  induction l with
  | nil => rfl
  | cons a rest ih => simp [blockDiag, ih]

theorem blockDiag_diag (l : List Arr2) (i : Nat) (hi : i < l.length)
    (r c : Nat) (hr : r < (l.getD i arr2Zero).rows) (hc : c < (l.getD i arr2Zero).cols) :
    (blockDiag l).entry (offsetAt (l.map Arr2.rows) i + r) (offsetAt (l.map Arr2.cols) i + c) =
      (l.getD i arr2Zero).entry r c := by
  induction l generalizing i with
  | nil => exact absurd hi (by simp)
  | cons a rest ih =>
      cases i with
      | zero =>
          simp only [List.getD_cons_zero] at hr hc ⊢
          rw [List.map_cons, List.map_cons, offsetAt_zero, offsetAt_zero, Nat.zero_add,
            Nat.zero_add]
          simp [blockDiag, hr, hc]
      | succ i' =>
          have hi' : i' < rest.length := by simpa using hi
          simp only [List.getD_cons_succ] at hr hc ⊢
          rw [List.map_cons, List.map_cons, offsetAt_cons_succ, offsetAt_cons_succ]
          have h1 : ¬ (a.rows + offsetAt (rest.map Arr2.rows) i' + r < a.rows ∧
              a.cols + offsetAt (rest.map Arr2.cols) i' + c < a.cols) := by
            intro hcon
            omega
          have h2 : a.rows ≤ a.rows + offsetAt (rest.map Arr2.rows) i' + r ∧
              a.cols ≤ a.cols + offsetAt (rest.map Arr2.cols) i' + c := by
            constructor <;> omega
          have e1 : a.rows + offsetAt (rest.map Arr2.rows) i' + r - a.rows =
              offsetAt (rest.map Arr2.rows) i' + r := by omega
          have e2 : a.cols + offsetAt (rest.map Arr2.cols) i' + c - a.cols =
              offsetAt (rest.map Arr2.cols) i' + c := by omega
          simp only [blockDiag, if_neg h1, if_pos h2]
          rw [e1, e2]
          exact ih i' hi' hr hc

theorem blockDiag_offdiag (l : List Arr2) (i j : Nat) (hi : i < l.length) (hj : j < l.length)
    (hne : i ≠ j) (r c : Nat) (hr : r < (l.getD i arr2Zero).rows)
    (hc : c < (l.getD j arr2Zero).cols) :
    (blockDiag l).entry (offsetAt (l.map Arr2.rows) i + r) (offsetAt (l.map Arr2.cols) j + c) =
      0 := by
  induction l generalizing i j with
  | nil => exact absurd hi (by simp)
  | cons a rest ih =>
      cases i with
      | zero =>
          cases j with
          | zero => exact absurd rfl hne
          | succ j' =>
              simp only [List.getD_cons_zero, List.getD_cons_succ] at hr hc
              rw [List.map_cons, List.map_cons, offsetAt_zero, offsetAt_cons_succ,
                Nat.zero_add]
              have h1 : ¬ (r < a.rows ∧ a.cols + offsetAt (rest.map Arr2.cols) j' + c <
                  a.cols) := by
                intro hcon
                omega
              have h2 : ¬ (a.rows ≤ r ∧ a.cols ≤ a.cols +
                  offsetAt (rest.map Arr2.cols) j' + c) := by
                intro hcon
                omega
              simp only [blockDiag, if_neg h1, if_neg h2]
      | succ i' =>
          cases j with
          | zero =>
              simp only [List.getD_cons_succ, List.getD_cons_zero] at hr hc
              rw [List.map_cons, List.map_cons, offsetAt_cons_succ, offsetAt_zero,
                Nat.zero_add]
              have h1 : ¬ (a.rows + offsetAt (rest.map Arr2.rows) i' + r < a.rows ∧
                  c < a.cols) := by
                intro hcon
                omega
              have h2 : ¬ (a.rows ≤ a.rows + offsetAt (rest.map Arr2.rows) i' + r ∧
                  a.cols ≤ c) := by
                intro hcon
                omega
              simp only [blockDiag, if_neg h1, if_neg h2]
          | succ j' =>
              have hi' : i' < rest.length := by simpa using hi
              have hj' : j' < rest.length := by simpa using hj
              have hne' : i' ≠ j' := by omega
              simp only [List.getD_cons_succ] at hr hc
              rw [List.map_cons, List.map_cons, offsetAt_cons_succ, offsetAt_cons_succ]
              have h1 : ¬ (a.rows + offsetAt (rest.map Arr2.rows) i' + r < a.rows ∧
                  a.cols + offsetAt (rest.map Arr2.cols) j' + c < a.cols) := by
                intro hcon
                omega
              have h2 : a.rows ≤ a.rows + offsetAt (rest.map Arr2.rows) i' + r ∧
                  a.cols ≤ a.cols + offsetAt (rest.map Arr2.cols) j' + c := by
                constructor <;> omega
              have e1 : a.rows + offsetAt (rest.map Arr2.rows) i' + r - a.rows =
                  offsetAt (rest.map Arr2.rows) i' + r := by omega
              have e2 : a.cols + offsetAt (rest.map Arr2.cols) j' + c - a.cols =
                  offsetAt (rest.map Arr2.cols) j' + c := by omega
              simp only [blockDiag, if_neg h1, if_pos h2]
              rw [e1, e2]
              exact ih i' j' hi' hj' hne' hr hc

theorem gram_map_rows (bl : List ScalarBasis) :
    (bl.map ScalarBasis.gram_matrix).map Arr2.rows = bl.map ScalarBasis.n_basis := by
  rw [List.map_map]
  rfl

theorem gram_map_cols (bl : List ScalarBasis) :
    (bl.map ScalarBasis.gram_matrix).map Arr2.cols = bl.map ScalarBasis.n_basis := by
  rw [List.map_map]
  rfl

/-- C3: the Gram matrix of a VectorValued basis is the block-diagonal
assembly of the children's Gram matrices, placed on the diagonal in child
order, with every off-diagonal block exactly zero. -/
theorem gram_matrix_block_diag (bl : List ScalarBasis) (v : VectorValued)
    (hv : VectorValued.mk? bl = .ok v)
    (i j : Nat) (hi : i < bl.length) (hj : j < bl.length)
    (r c : Nat) (hr : r < (bl.getD i scalarBasisZero).n_basis)
    (hc : c < (bl.getD j scalarBasisZero).n_basis) :
    (VectorValued._gram_matrix v).rows = v.n_basis ∧
    (VectorValued._gram_matrix v).cols = v.n_basis ∧
    (VectorValued._gram_matrix v).entry
        (offsetAt (bl.map ScalarBasis.n_basis) i + r)
        (offsetAt (bl.map ScalarBasis.n_basis) j + c) =
      if i = j then (bl.getD i scalarBasisZero).gramFun r c else 0 := by
  obtain ⟨hbl, hn, -, -, -, -⟩ := VectorValued.mk?_ok bl v hv
  have hgr : (VectorValued._gram_matrix v).rows = v.n_basis := by
    rw [VectorValued._gram_matrix, blockDiag_rows, hbl, gram_map_rows, hn]
  have hgc : (VectorValued._gram_matrix v).cols = v.n_basis := by
    rw [VectorValued._gram_matrix, blockDiag_cols, hbl, gram_map_cols, hn]
  refine ⟨hgr, hgc, ?_⟩
  have hgetr : (bl.map ScalarBasis.gram_matrix).getD i arr2Zero =
      (bl.getD i scalarBasisZero).gram_matrix :=
    getD_map_of_lt _ bl i hi scalarBasisZero arr2Zero
  have hgetc : (bl.map ScalarBasis.gram_matrix).getD j arr2Zero =
      (bl.getD j scalarBasisZero).gram_matrix :=
    getD_map_of_lt _ bl j hj scalarBasisZero arr2Zero
  have hil : i < (bl.map ScalarBasis.gram_matrix).length := by simpa using hi
  have hjl : j < (bl.map ScalarBasis.gram_matrix).length := by simpa using hj
  by_cases hij : i = j
  · subst hij
    have := blockDiag_diag (bl.map ScalarBasis.gram_matrix) i hil r c
      (by rw [hgetr]; exact hr) (by rw [hgetr]; exact hc)
    rw [gram_map_rows, gram_map_cols, hgetr] at this
    rw [VectorValued._gram_matrix, hbl, this]
    simp [ScalarBasis.gram_matrix]
  · have := blockDiag_offdiag (bl.map ScalarBasis.gram_matrix) i j hil hjl hij r c
      (by rw [hgetr]; exact hr) (by rw [hgetc]; exact hc)
    rw [gram_map_rows, gram_map_cols] at this
    rw [VectorValued._gram_matrix, hbl, this, if_neg hij]

/-- Embedding of `np.cumsum` on a list of naturals. -/
def npCumsum : List Nat → List Nat
  | [] => []
  | n :: rest => n :: (npCumsum rest).map (n + ·)

/-- The tail of `np.hsplit(a, splits)`: split a 2-D array at the given column
indices, starting the current block at column `start`; the final block runs
to the end of the array. -/
def npHsplitAux (a : Arr2) : Nat → List Nat → List Arr2
  | start, [] => [⟨a.rows, a.cols - start, fun r c => a.entry r (start + c)⟩]
  | start, s :: rest =>
      ⟨a.rows, s - start, fun r c => a.entry r (start + c)⟩ :: npHsplitAux a s rest

/-- Embedding of `np.hsplit(a, splits)`. -/
def npHsplit (a : Arr2) (splits : List Nat) : List Arr2 := npHsplitAux a 0 splits

/-- The entry function of `np.hstack(blocks)`: walk the blocks left to
right, consuming each block's column count. -/
def npHstackEntry : List Arr2 → Nat → Nat → ℚ
  | [], _, _ => 0
  | a :: rest, r, c => if c < a.cols then a.entry r c else npHstackEntry rest r (c - a.cols)

/-- Embedding of `np.hstack(blocks)`: the blocks side by side (all sharing the row count
of the first one). -/
def npHstack (blocks : List Arr2) : Arr2 :=
  ⟨(blocks.headD arr2Zero).rows, (blocks.map Arr2.cols).sum, npHstackEntry blocks⟩

/-- Embedding of `VectorValued._derivative_basis_and_coefs`: split the coefficient matrix
into contiguous column blocks at the cumulative child `n_basis` boundaries,
differentiate each child's (sub-basis, sub-coefficients) pair via the scalar
`_derivative_basis_and_coefs` (abstracted as `childDeriv`, since the scalar
bases' own derivative rules are not under `src/`), rebuild a `VectorValued`
from the differentiated children (running `__init__` validation again) and
horizontally stack the differentiated coefficient blocks. -/
def VectorValued._derivative_basis_and_coefs
    (childDeriv : ScalarBasis → Arr2 → Nat → ScalarBasis × Arr2)
    (v : VectorValued) (coefs : Arr2) (order : Nat) :
    Except InitError (VectorValued × Arr2) :=
  let n_basis_list := v.basis_list.map ScalarBasis.n_basis
  let indexes := npCumsum n_basis_list
  let coefs_per_basis := npHsplit coefs indexes.dropLast
  let basis_and_coefs :=
    List.zipWith (fun b c => childDeriv b c order) v.basis_list coefs_per_basis
  let new_basis_list := basis_and_coefs.map Prod.fst
  let new_coefs_list := basis_and_coefs.map Prod.snd
  (VectorValued.mk? new_basis_list).map fun new_basis => (new_basis, npHstack new_coefs_list)

/-- The contiguous column block of the coefficient matrix belonging to child
`i`: columns `[offsetAt ns i, offsetAt ns i + ns i)`. -/
def childBlock (v : VectorValued) (coefs : Arr2) (i : Nat) : Arr2 :=
  ⟨coefs.rows, (v.basis_list.map ScalarBasis.n_basis).getD i 0,
   fun r c => coefs.entry r (offsetAt (v.basis_list.map ScalarBasis.n_basis) i + c)⟩

/-- Modelled from the spec (§3 and glossary): an `FDataBasis` sample
evaluates as the linear combination of the basis functions weighted by the
sample's coefficient row (`FDataBasis.evaluate` itself is not under
`src/`).  `repEval v coefs pts s j k` is the value of sample `s` at the
`j`-th point in coordinate `k`. -/
def repEval (v : VectorValued) (coefs : Arr2) (pts : List ℚ) (s j k : Nat) : ℚ :=
  ∑ r in Finset.range v.n_basis,
    coefs.entry s r * (VectorValued._evaluate v pts).entry r j k

/-- Modelled from the spec (§3 and glossary): the same linear-combination
evaluation for a scalar basis representation. -/
def scalarRepEval (b : ScalarBasis) (coefs : Arr2) (pts : List ℚ) (s j : Nat) : ℚ :=
  ∑ r in Finset.range b.n_basis, coefs.entry s r * (b.evaluate pts).entry r j 0

theorem get_eq_getD {α : Type} (l : List α) (i : Nat) (h : i < l.length) (d : α) :
    l.get ⟨i, h⟩ = l.getD i d := by
  induction l generalizing i with
  | nil => exact absurd h (by simp)
  | cons a rest ih =>
      cases i with
      | zero => simp
      | succ i' => simpa using ih i' (by simpa using h)

theorem getD_zipWith {α β γ : Type} (f : α → β → γ) (l₁ : List α) (l₂ : List β) (i : Nat)
    (h₁ : i < l₁.length) (h₂ : i < l₂.length) (d₁ : α) (d₂ : β) (d₃ : γ) :
    (List.zipWith f l₁ l₂).getD i d₃ = f (l₁.getD i d₁) (l₂.getD i d₂) := by
  induction l₁ generalizing l₂ i with
  | nil => exact absurd h₁ (by simp)
  | cons a rest ih =>
      cases l₂ with
      | nil => exact absurd h₂ (by simp)
      | cons b rest₂ =>
          cases i with
          | zero => simp
          | succ i' =>
              simp only [List.zipWith_cons_cons, List.getD_cons_succ]
              exact ih rest₂ i' (by simpa using h₁) (by simpa using h₂)

theorem npCumsum_length (ns : List Nat) : (npCumsum ns).length = ns.length := by
  induction ns with
  | nil => rfl
  | cons n rest ih => simp [npCumsum, ih]

theorem npHsplitAux_length (a : Arr2) (start : Nat) (l : List Nat) :
    (npHsplitAux a start l).length = l.length + 1 := by
  induction l generalizing start with
  | nil => rfl
  | cons s rest ih => simp [npHsplitAux, ih]

theorem npHsplit_length (a : Arr2) (n : Nat) (ns : List Nat) :
    (npHsplit a (npCumsum (n :: ns)).dropLast).length = (n :: ns).length := by
  rw [npHsplit, npHsplitAux_length, List.length_dropLast, npCumsum_length]
  simp

theorem npHsplitAux_getD (a : Arr2) (ns : List Nat) (n start : Nat)
    (hcols : a.cols = start + (n :: ns).sum) (i : Nat) (hi : i < (n :: ns).length) :
    (npHsplitAux a start ((npCumsum (n :: ns)).map (start + ·)).dropLast).getD i arr2Zero =
      ⟨a.rows, (n :: ns).getD i 0,
       fun r c => a.entry r (start + offsetAt (n :: ns) i + c)⟩ := by
  induction ns generalizing n start i with
  | nil =>
      have hi0 : i = 0 := by
        simp only [List.length_cons, List.length_nil] at hi
        omega
      subst hi0
      simp only [npCumsum, List.map_cons, List.map_nil, List.dropLast_single,
        npHsplitAux, List.getD_cons_zero]
      have hw : a.cols - start = n := by
        simp only [List.sum_cons, List.sum_nil] at hcols
        omega
      rw [hw]
      congr 1
  | cons m rest ih =>
      have hmap : ((npCumsum (n :: m :: rest)).map (start + ·)).dropLast =
          (start + n) :: ((npCumsum (m :: rest)).map ((start + n) + ·)).dropLast := by
        show ((n :: (npCumsum (m :: rest)).map (n + ·)).map (start + ·)).dropLast = _
        rw [List.map_cons, List.map_map]
        have hcomp : (npCumsum (m :: rest)).map ((start + ·) ∘ (n + ·)) =
            (npCumsum (m :: rest)).map ((start + n) + ·) := by
          apply List.map_congr_left
          intro x _
          simp only [Function.comp_apply]
          omega
        rw [hcomp]
        rw [List.dropLast_cons_of_ne_nil]
        intro hnil
        have : (npCumsum (m :: rest)).length = 0 := by
          have := congrArg List.length hnil
          simpa using this
        rw [npCumsum_length] at this
        simp at this
      rw [hmap, npHsplitAux]
      cases i with
      | zero =>
          simp only [List.getD_cons_zero]
          have hw : start + n - start = n := by omega
          rw [hw]
          congr 1
      | succ i' =>
          simp only [List.getD_cons_succ]
          have hi' : i' < (m :: rest).length := by simpa using hi
          have hcols' : a.cols = (start + n) + (m :: rest).sum := by
            simp only [List.sum_cons] at hcols ⊢
            omega
          rw [ih m (start + n) hcols' i' hi']
          congr 1
          funext r c
          rw [offsetAt_cons_succ]
          congr 2
          omega

theorem npHsplit_getD (a : Arr2) (n : Nat) (ns : List Nat)
    (hcols : a.cols = (n :: ns).sum) (i : Nat) (hi : i < (n :: ns).length) :
    (npHsplit a (npCumsum (n :: ns)).dropLast).getD i arr2Zero =
      ⟨a.rows, (n :: ns).getD i 0, fun r c => a.entry r (offsetAt (n :: ns) i + c)⟩ := by
  have hmap : (npCumsum (n :: ns)).map (0 + ·) = npCumsum (n :: ns) := by
    have : (npCumsum (n :: ns)).map (0 + ·) = (npCumsum (n :: ns)).map id := by
      apply List.map_congr_left
      intro x _
      simp
    rw [this, List.map_id]
  rw [npHsplit, ← hmap, npHsplitAux_getD a ns n 0 (by omega) i hi]
  congr 1
  funext r c
  congr 1
  omega

theorem npHstackEntry_block (blocks : List Arr2) (i : Nat) (hi : i < blocks.length)
    (r c : Nat) (hc : c < (blocks.getD i arr2Zero).cols) :
    npHstackEntry blocks r (offsetAt (blocks.map Arr2.cols) i + c) =
      (blocks.getD i arr2Zero).entry r c := by
  induction blocks generalizing i with
  | nil => exact absurd hi (by simp)
  | cons a rest ih =>
      cases i with
      | zero =>
          simp only [List.getD_cons_zero] at hc ⊢
          rw [List.map_cons, offsetAt_zero, Nat.zero_add]
          simp [npHstackEntry, hc]
      | succ i' =>
          have hi' : i' < rest.length := by simpa using hi
          simp only [List.getD_cons_succ] at hc ⊢
          rw [List.map_cons, offsetAt_cons_succ]
          have hge : ¬ (a.cols + offsetAt (rest.map Arr2.cols) i' + c < a.cols) := by omega
          have he : a.cols + offsetAt (rest.map Arr2.cols) i' + c - a.cols =
              offsetAt (rest.map Arr2.cols) i' + c := by omega
          simp only [npHstackEntry, if_neg hge, he]
          exact ih i' hi' hc

theorem sum_range_add_split (m n : Nat) (f : Nat → ℚ) :
    ∑ r in Finset.range (m + n), f r =
      (∑ r in Finset.range m, f r) + ∑ c in Finset.range n, f (m + c) := by
  induction n with
  | zero => simp
  | succ n' ih =>
      rw [← Nat.add_assoc, Finset.sum_range_succ, ih, Finset.sum_range_succ]
      ring

theorem sum_range_blocks (ns : List Nat) (f : Nat → ℚ) :
    ∑ r in Finset.range ns.sum, f r =
      ∑ p in Finset.range ns.length, ∑ c in Finset.range (ns.getD p 0),
        f (offsetAt ns p + c) := by
  induction ns generalizing f with
  | nil => simp
  | cons n rest ih =>
      rw [List.sum_cons, sum_range_add_split, List.length_cons, Finset.sum_range_succ']
      have h0 : ∑ c in Finset.range ((n :: rest).getD 0 0), f (offsetAt (n :: rest) 0 + c) =
          ∑ r in Finset.range n, f r := by
        apply Finset.sum_congr rfl
        intro c _
        rw [offsetAt_zero, Nat.zero_add]
      have hs : ∑ p in Finset.range rest.length,
          ∑ c in Finset.range ((n :: rest).getD (p + 1) 0), f (offsetAt (n :: rest) (p + 1) + c) =
          ∑ c in Finset.range rest.sum, f (n + c) := by
        rw [ih (fun c => f (n + c))]
        apply Finset.sum_congr rfl
        intro p _
        apply Finset.sum_congr rfl
        intro c _
        rw [offsetAt_cons_succ]
        congr 1
        omega
      rw [h0, hs]
      ring

theorem npHsplit_length_ne (a : Arr2) (ns : List Nat) (hne : ns ≠ []) :
    (npHsplit a (npCumsum ns).dropLast).length = ns.length := by
  cases ns with
  | nil => exact absurd rfl hne
  | cons n rest => exact npHsplit_length a n rest

theorem npHsplit_getD_ne (a : Arr2) (ns : List Nat) (hne : ns ≠ [])
    (hcols : a.cols = ns.sum) (i : Nat) (hi : i < ns.length) :
    (npHsplit a (npCumsum ns).dropLast).getD i arr2Zero =
      ⟨a.rows, ns.getD i 0, fun r c => a.entry r (offsetAt ns i + c)⟩ := by
  cases ns with
  | nil => exact absurd rfl hne
  | cons n rest => exact npHsplit_getD a n rest hcols i hi

/-- The row-band structure of `VectorValued._evaluate`, for any child index
and coordinate slot (helper shared by several claims). -/
theorem evaluate_entry_band (v : VectorValued) (pts : List ℚ) (p : Nat)
    (hp : p < v.basis_list.length) (c : Nat)
    (hc : c < (v.basis_list.getD p scalarBasisZero).n_basis) (j k : Nat) :
    (VectorValued._evaluate v pts).entry
        (offsetAt (v.basis_list.map ScalarBasis.n_basis) p + c) j k =
      if k = p then ((v.basis_list.getD p scalarBasisZero).evaluate pts).entry c j 0
      else 0 := by
  have hmm : ((v.basis_list.map fun b => b.evaluate pts).map Arr3.d0) =
      v.basis_list.map ScalarBasis.n_basis := by
    rw [List.map_map]
    rfl
  have hget : (v.basis_list.map fun b => b.evaluate pts).getD p arr3Zero =
      (v.basis_list.getD p scalarBasisZero).evaluate pts :=
    getD_map_of_lt _ v.basis_list p hp scalarBasisZero arr3Zero
  have hlen : p < (v.basis_list.map fun b => b.evaluate pts).length := by simpa using hp
  have hc' : c < ((v.basis_list.map fun b => b.evaluate pts).getD p arr3Zero).d0 := by
    rw [hget, evaluate_d0]
    exact hc
  have hband := evalLoop_band (v.basis_list.map fun b => b.evaluate pts) p hlen c hc' j k 0 0
    (fun _ _ _ => 0)
  simp only [Nat.zero_add] at hband
  rw [hmm] at hband
  simp only [VectorValued._evaluate]
  rw [hband, hget]

theorem derivative_ok_inv (cd : ScalarBasis → Arr2 → Nat → ScalarBasis × Arr2)
    (v : VectorValued) (coefs : Arr2) (order : Nat) (nb : VectorValued) (nc : Arr2)
    (h : VectorValued._derivative_basis_and_coefs cd v coefs order = .ok (nb, nc)) :
    VectorValued.mk?
        ((List.zipWith (fun b c => cd b c order) v.basis_list
          (npHsplit coefs (npCumsum (v.basis_list.map ScalarBasis.n_basis)).dropLast)).map
          Prod.fst) = .ok nb ∧
    nc = npHstack
        ((List.zipWith (fun b c => cd b c order) v.basis_list
          (npHsplit coefs (npCumsum (v.basis_list.map ScalarBasis.n_basis)).dropLast)).map
          Prod.snd) := by
  simp only [VectorValued._derivative_basis_and_coefs] at h
  cases hmk : VectorValued.mk?
      ((List.zipWith (fun b c => cd b c order) v.basis_list
        (npHsplit coefs (npCumsum (v.basis_list.map ScalarBasis.n_basis)).dropLast)).map
        Prod.fst) with
  | error e =>
      rw [hmk] at h
      exact absurd h (by simp [Except.map])
  | ok x =>
      rw [hmk] at h
      simp only [Except.map, Except.ok.injEq, Prod.mk.injEq] at h
      exact ⟨by rw [h.1], h.2.symm⟩

theorem getD_range (n i : Nat) (hi : i < n) (d : Nat) : (List.range n).getD i d = i := by
  rw [← get_eq_getD (List.range n) i (by simpa using hi) d]
  simp

/-- C2: differentiating a VectorValued representation splits the coefficient
matrix into contiguous column blocks per child at the cumulative child
`n_basis` boundaries, differentiates each child's (sub-basis,
sub-coefficients) pair independently, and reassembles a VectorValued basis
whose children are the differentiated children in order, with the
differentiated coefficient blocks horizontally concatenated in the original
column order; hence evaluating the differentiated representation in
coordinate `i` equals evaluating child `i`'s differentiated scalar
representation (differentiation and coordinate decomposition commute). -/
theorem derivative_splits_and_commutes
    (cd : ScalarBasis → Arr2 → Nat → ScalarBasis × Arr2)
    (v : VectorValued) (coefs : Arr2) (order : Nat) (nb : VectorValued) (nc : Arr2)
    (hcols : coefs.cols = (v.basis_list.map ScalarBasis.n_basis).sum)
    (hshape : ∀ t, t < v.basis_list.length →
      ((cd (v.basis_list.getD t scalarBasisZero) (childBlock v coefs t) order).2).cols =
        ((cd (v.basis_list.getD t scalarBasisZero) (childBlock v coefs t) order).1).n_basis)
    (h : VectorValued._derivative_basis_and_coefs cd v coefs order = .ok (nb, nc))
    (i : Nat) (hi : i < v.basis_list.length) (pts : List ℚ) (s j : Nat) :
    nb.basis_list = (List.range v.basis_list.length).map
        (fun t => (cd (v.basis_list.getD t scalarBasisZero) (childBlock v coefs t) order).1) ∧
    (∀ c, c <
        ((cd (v.basis_list.getD i scalarBasisZero) (childBlock v coefs i) order).1).n_basis →
      nc.entry s (offsetAt (nb.basis_list.map ScalarBasis.n_basis) i + c) =
        ((cd (v.basis_list.getD i scalarBasisZero) (childBlock v coefs i) order).2).entry s c) ∧
    repEval nb nc pts s j i =
      scalarRepEval
        (cd (v.basis_list.getD i scalarBasisZero) (childBlock v coefs i) order).1
        (cd (v.basis_list.getD i scalarBasisZero) (childBlock v coefs i) order).2 pts s j := by
  obtain ⟨hmk, hnc⟩ := derivative_ok_inv cd v coefs order nb nc h
  set zl := List.zipWith (fun b c => cd b c order) v.basis_list
      (npHsplit coefs (npCumsum (v.basis_list.map ScalarBasis.n_basis)).dropLast) with hzl
  have hne : v.basis_list ≠ [] := by
    intro hnil
    rw [hnil] at hi
    exact absurd hi (by simp)
  have hnsne : v.basis_list.map ScalarBasis.n_basis ≠ [] := by
    intro hnil
    exact hne (List.map_eq_nil_iff.mp hnil)
  have hsplitLen :
      (npHsplit coefs (npCumsum (v.basis_list.map ScalarBasis.n_basis)).dropLast).length =
        v.basis_list.length := by
    rw [npHsplit_length_ne coefs _ hnsne, List.length_map]
  have hblockD : ∀ t, t < v.basis_list.length →
      (npHsplit coefs (npCumsum (v.basis_list.map ScalarBasis.n_basis)).dropLast).getD t
          arr2Zero = childBlock v coefs t := by
    intro t ht
    rw [npHsplit_getD_ne coefs _ hnsne hcols t (by simpa using ht)]
    rfl
  have hzipLen : zl.length = v.basis_list.length := by
    rw [hzl, List.length_zipWith, hsplitLen, Nat.min_self]
  have hbcD : ∀ t, t < v.basis_list.length →
      zl.getD t (scalarBasisZero, arr2Zero) =
        cd (v.basis_list.getD t scalarBasisZero) (childBlock v coefs t) order := by
    intro t ht
    rw [hzl, getD_zipWith _ _ _ t ht (by rw [hsplitLen]; exact ht) scalarBasisZero arr2Zero,
      hblockD t ht]
  obtain ⟨hnbl, hnbn, -, -, -, -⟩ := VectorValued.mk?_ok _ nb hmk
  have hlennb : nb.basis_list.length = v.basis_list.length := by
    rw [hnbl, List.length_map, hzipLen]
  have hgetnb : ∀ t, t < v.basis_list.length →
      nb.basis_list.getD t scalarBasisZero =
        (cd (v.basis_list.getD t scalarBasisZero) (childBlock v coefs t) order).1 := by
    intro t ht
    rw [hnbl, getD_map_of_lt Prod.fst zl t (by rw [hzipLen]; exact ht)
      (scalarBasisZero, arr2Zero) scalarBasisZero, hbcD t ht]
  have ha : nb.basis_list = (List.range v.basis_list.length).map
      (fun t => (cd (v.basis_list.getD t scalarBasisZero) (childBlock v coefs t) order).1) := by
    apply List.ext_get
    · rw [hlennb, List.length_map, List.length_range]
    · intro t h1 h2
      have ht : t < v.basis_list.length := by rw [← hlennb]; exact h1
      rw [get_eq_getD _ t h1 scalarBasisZero, get_eq_getD _ t h2 scalarBasisZero]
      rw [hgetnb t ht]
      rw [getD_map_of_lt _ (List.range v.basis_list.length) t (by simpa using ht) 0
        scalarBasisZero, getD_range _ t ht 0]
  have hcolsList : (zl.map Prod.snd).map Arr2.cols = nb.basis_list.map ScalarBasis.n_basis := by
    apply List.ext_get
    · rw [List.length_map, List.length_map, hzipLen, List.length_map, hlennb]
    · intro t h1 h2
      have ht : t < v.basis_list.length := by
        rw [List.length_map, List.length_map, hzipLen] at h1
        exact h1
      rw [get_eq_getD _ t h1 0, get_eq_getD _ t h2 0]
      rw [getD_map_of_lt Arr2.cols (zl.map Prod.snd) t
        (by rw [List.length_map, hzipLen]; exact ht) arr2Zero 0]
      rw [getD_map_of_lt Prod.snd zl t (by rw [hzipLen]; exact ht)
        (scalarBasisZero, arr2Zero) arr2Zero]
      rw [getD_map_of_lt ScalarBasis.n_basis nb.basis_list t
        (by rw [hlennb]; exact ht) scalarBasisZero 0]
      rw [hbcD t ht, hgetnb t ht]
      exact hshape t ht
  have hb : ∀ c, c <
      ((cd (v.basis_list.getD i scalarBasisZero) (childBlock v coefs i) order).1).n_basis →
      nc.entry s (offsetAt (nb.basis_list.map ScalarBasis.n_basis) i + c) =
        ((cd (v.basis_list.getD i scalarBasisZero) (childBlock v coefs i) order).2).entry s c := by
    intro c hc
    rw [hnc]
    show npHstackEntry (zl.map Prod.snd) s
        (offsetAt (nb.basis_list.map ScalarBasis.n_basis) i + c) = _
    rw [← hcolsList]
    rw [npHstackEntry_block (zl.map Prod.snd) i (by rw [List.length_map, hzipLen]; exact hi) s c
      (by
        rw [getD_map_of_lt Prod.snd zl i (by rw [hzipLen]; exact hi)
          (scalarBasisZero, arr2Zero) arr2Zero, hbcD i hi, hshape i hi]
        exact hc)]
    rw [getD_map_of_lt Prod.snd zl i (by rw [hzipLen]; exact hi)
      (scalarBasisZero, arr2Zero) arr2Zero, hbcD i hi]
  refine ⟨ha, hb, ?_⟩
  have hnbn' : nb.n_basis = (nb.basis_list.map ScalarBasis.n_basis).sum := by
    rw [hnbn, hnbl]
  rw [repEval, hnbn', sum_range_blocks]
  have hlenmap : (nb.basis_list.map ScalarBasis.n_basis).length = v.basis_list.length := by
    rw [List.length_map, hlennb]
  rw [Finset.sum_eq_single_of_mem i (by rw [Finset.mem_range, hlenmap]; exact hi)]
  · have hdi : (nb.basis_list.map ScalarBasis.n_basis).getD i 0 =
        ((cd (v.basis_list.getD i scalarBasisZero) (childBlock v coefs i) order).1).n_basis := by
      rw [getD_map_of_lt ScalarBasis.n_basis nb.basis_list i (by rw [hlennb]; exact hi)
        scalarBasisZero 0, hgetnb i hi]
    rw [hdi, scalarRepEval]
    apply Finset.sum_congr rfl
    intro c hc
    rw [Finset.mem_range] at hc
    rw [hb c hc]
    congr 1
    have hband := evaluate_entry_band nb pts i (by rw [hlennb]; exact hi) c
      (by rw [hgetnb i hi]; exact hc) j i
    rw [if_pos rfl] at hband
    rw [hband, hgetnb i hi]
  · intro p hp hpne
    rw [Finset.mem_range, hlenmap] at hp
    apply Finset.sum_eq_zero
    intro c hc
    rw [Finset.mem_range] at hc
    have hcp : c < (nb.basis_list.getD p scalarBasisZero).n_basis := by
      rw [← getD_map_of_lt ScalarBasis.n_basis nb.basis_list p (by rw [hlennb]; exact hp)
        scalarBasisZero 0]
      exact hc
    have hband := evaluate_entry_band nb pts p (by rw [hlennb]; exact hp) c hcp j i
    rw [if_neg (by exact fun hip => hpne (by omega))] at hband
    rw [hband, mul_zero]

/-- The kind of basis stored by a representation object: either a scalar
child basis (returned by integer-keyed coordinate selection) or a
`VectorValued` basis. -/
inductive BasisRef
  | scalar (b : ScalarBasis)
  | vector (v : VectorValued)

/-- The `FDataBasis` attributes used by `VectorValued._coordinate_nonfull`:
the basis, the coefficient matrix, the per-coordinate names, plus further
attributes (`dataset_name`, `sample_names`) that `copy` leaves untouched. -/
structure FDataBasis where
  basis : BasisRef
  coefficients : Arr2
  coordinate_names : List (Option String)
  dataset_name : Option String
  sample_names : List (Option String)

/-- The selection key of `_coordinate_nonfull`: a Python `int`, or a Python
`range(start, stop)` with the default step 1 (the only step the surrounding
code produces: an integer key `k` is itself turned into `range(k, k + 1)`). -/
inductive CoordKey
  | int (i : Nat)
  | rng (start stop : Nat)

/-- Python list slicing `l[start:stop]` with step 1. -/
def listSlice {α : Type} (l : List α) (start stop : Nat) : List α :=
  (l.drop start).take (stop - start)

/-- The column positions selected by a boolean mask, in order (numpy boolean
array indexing along axis 1). -/
def maskPositionsAux : List Bool → Nat → List Nat
  | [], _ => []
  | true :: rest, i => i :: maskPositionsAux rest (i + 1)
  | false :: rest, i => maskPositionsAux rest (i + 1)

def maskPositions (mask : List Bool) : List Nat := maskPositionsAux mask 0

/-- Embedding of `a[:, mask]` for a boolean column mask. -/
def maskSelect (a : Arr2) (mask : List Bool) : Arr2 :=
  ⟨a.rows, (maskPositions mask).length, fun r c => a.entry r ((maskPositions mask).getD c 0)⟩

/-- Embedding of `VectorValued._coordinate_nonfull`: normalise an integer key to a
one-element range, build the boolean column mask selecting the columns of
the children inside the range, slice the child list, build the new basis (a
single scalar child for an integer key — `IndexError` if the selection is
empty — or a `VectorValued` of the selected children, re-running
`__init__`), and return a copy of the representation with the masked
coefficient columns and sliced coordinate names, all other attributes
shared. -/
def VectorValued._coordinate_nonfull (v : VectorValued) (fd : FDataBasis) (key : CoordKey) :
    Except InitError FDataBasis :=
  let r_key := match key with
    | .int i => (i, i + 1)
    | .rng a b => (a, b)
  let coef_indexes : List Bool :=
    (v.basis_list.enum.map fun ib =>
      List.replicate ib.2.n_basis (decide (r_key.1 ≤ ib.1 ∧ ib.1 < r_key.2))).flatten
  let new_basis_list := listSlice v.basis_list r_key.1 r_key.2
  let coefs := maskSelect fd.coefficients coef_indexes
  let coordinate_names := listSlice fd.coordinate_names r_key.1 r_key.2
  match key with
  | .int _ =>
      match new_basis_list with
      | [] => .error .indexError
      | b :: _ =>
          .ok { fd with basis := .scalar b, coefficients := coefs,
                        coordinate_names := coordinate_names }
  | .rng _ _ =>
      (VectorValued.mk? new_basis_list).map fun nv =>
        { fd with basis := .vector nv, coefficients := coefs,
                  coordinate_names := coordinate_names }

theorem mask_flatten_false (bl : List ScalarBasis) (k t : Nat) (ht : k ≤ t) :
    ((bl.enumFrom t).map fun ib =>
      List.replicate ib.2.n_basis (decide (0 ≤ ib.1 ∧ ib.1 < k))).flatten =
    List.replicate ((bl.map ScalarBasis.n_basis).sum) false := by
  induction bl generalizing t with
  | nil => simp
  | cons b rest ih =>
      rw [List.enumFrom_cons, List.map_cons, List.flatten_cons, ih (t + 1) (by omega)]
      have hdec : decide (0 ≤ (t, b).1 ∧ (t, b).1 < k) = false :=
        decide_eq_false (by simp; omega)
      rw [hdec, List.map_cons, List.sum_cons, List.replicate_add]

theorem mask_flatten_true (bl : List ScalarBasis) (k t : Nat) (ht : t < k) :
    ((bl.enumFrom t).map fun ib =>
      List.replicate ib.2.n_basis (decide (0 ≤ ib.1 ∧ ib.1 < k))).flatten =
    List.replicate (offsetAt (bl.map ScalarBasis.n_basis) (k - t)) true ++
    List.replicate (((bl.drop (k - t)).map ScalarBasis.n_basis).sum) false := by
  induction bl generalizing t with
  | nil => simp [offsetAt]
  | cons b rest ih =>
      have hdec : decide (0 ≤ (t, b).1 ∧ (t, b).1 < k) = true :=
        decide_eq_true (by simp; omega)
      rw [List.enumFrom_cons, List.map_cons, List.flatten_cons, hdec]
      by_cases hk : t + 1 < k
      · have hkt : k - t = (k - (t + 1)) + 1 := by omega
        rw [ih (t + 1) hk, hkt, List.map_cons, offsetAt_cons_succ, List.replicate_add,
          List.append_assoc]
        have hdrop : (b :: rest).drop ((k - (t + 1)) + 1) = rest.drop (k - (t + 1)) := by
          rw [List.drop_succ_cons]
        rw [hdrop]
      · have hk1 : k = t + 1 := by omega
        rw [mask_flatten_false rest k (t + 1) (by omega)]
        have hkt : k - t = 1 := by omega
        rw [hkt]
        have hoff : offsetAt ((b :: rest).map ScalarBasis.n_basis) 1 = b.n_basis := by
          rw [List.map_cons, show (1 : Nat) = 0 + 1 from rfl, offsetAt_cons_succ, offsetAt_zero]
          omega
        rw [hoff, List.drop_succ_cons, List.drop_zero]

theorem maskPositionsAux_true (S : Nat) (L : List Bool) (i : Nat) :
    maskPositionsAux (List.replicate S true ++ L) i =
      (List.range' i S) ++ maskPositionsAux L (i + S) := by
  induction S generalizing i with
  | zero => simp [maskPositionsAux]
  | succ S' ih =>
      rw [List.replicate_succ, List.cons_append, maskPositionsAux, ih (i + 1),
        List.range'_succ]
      have : i + 1 + S' = i + (S' + 1) := by omega
      rw [this, List.cons_append]

theorem maskPositionsAux_false (R i : Nat) :
    maskPositionsAux (List.replicate R false) i = [] := by
  induction R generalizing i with
  | zero => rfl
  | succ R' ih =>
      rw [List.replicate_succ, maskPositionsAux, ih (i + 1)]

theorem maskPositions_mask_eq (bl : List ScalarBasis) (k : Nat) (hk : 0 < k) :
    maskPositions ((bl.enum.map fun ib =>
        List.replicate ib.2.n_basis (decide (0 ≤ ib.1 ∧ ib.1 < k))).flatten) =
      List.range (offsetAt (bl.map ScalarBasis.n_basis) k) := by
  have henum : bl.enum = bl.enumFrom 0 := rfl
  rw [maskPositions, henum, mask_flatten_true bl k 0 hk, Nat.sub_zero,
    maskPositionsAux_true, maskPositionsAux_false, List.append_nil,
    List.range_eq_range']

theorem listSlice_zero {α : Type} (l : List α) (k : Nat) : listSlice l 0 k = l.take k := by
  simp [listSlice]

/-- C4: selecting the coordinate range `[0, k)` via `_coordinate_nonfull`
yields a representation whose coefficient matrix is the slice of the
original one to the first `sum(Bi.n_basis for i < k)` columns, whose basis
is the VectorValued basis of the first `k` children, and which shares all
other attributes with the original. -/
theorem coordinate_nonfull_prefix (v : VectorValued) (fd : FDataBasis) (k : Nat)
    (hk : 0 < k) (hkle : k ≤ v.basis_list.length)
    (hc : ∀ b ∈ v.basis_list, b.dim_codomain = 1)
    (hd : ∀ b ∈ v.basis_list,
      b.dim_domain = (v.basis_list.headD scalarBasisZero).dim_domain ∧
      b.domain_range = (v.basis_list.headD scalarBasisZero).domain_range) :
    ∃ fd₂, VectorValued._coordinate_nonfull v fd (.rng 0 k) = .ok fd₂ ∧
      fd₂.coefficients.cols = offsetAt (v.basis_list.map ScalarBasis.n_basis) k ∧
      (∀ s c, c < offsetAt (v.basis_list.map ScalarBasis.n_basis) k →
        fd₂.coefficients.entry s c = fd.coefficients.entry s c) ∧
      (∃ nv, fd₂.basis = .vector nv ∧ nv.basis_list = v.basis_list.take k) ∧
      fd₂.coordinate_names = fd.coordinate_names.take k ∧
      fd₂.dataset_name = fd.dataset_name ∧
      fd₂.sample_names = fd.sample_names := by
  obtain ⟨b₀, bs, hbl⟩ : ∃ b₀ bs, v.basis_list = b₀ :: bs := by
    cases hv : v.basis_list with
    | nil =>
        rw [hv] at hkle
        simp at hkle
        omega
    | cons x xs => exact ⟨x, xs, rfl⟩
  obtain ⟨k', hk'⟩ : ∃ k', k = k' + 1 := ⟨k - 1, by omega⟩
  have htake : v.basis_list.take k = b₀ :: bs.take k' := by
    rw [hbl, hk', List.take_succ_cons]
  have hsub : ∀ b, b ∈ b₀ :: bs.take k' → b ∈ v.basis_list := by
    intro b hb
    rw [← htake] at hb
    exact List.take_subset k v.basis_list hb
  have hc' : ∀ b ∈ b₀ :: bs.take k', b.dim_codomain = 1 := fun b hb => hc b (hsub b hb)
  have hd' : ∀ b ∈ b₀ :: bs.take k',
      b.dim_domain = b₀.dim_domain ∧ b.domain_range = b₀.domain_range := by
    intro b hb
    have := hd b (hsub b hb)
    rw [hbl, List.headD_cons] at this
    exact this
  have hmk := VectorValued.mk?_ok_of_valid b₀ (bs.take k') hc' hd'
  have hsliceb : listSlice v.basis_list 0 k = b₀ :: bs.take k' := by
    rw [listSlice_zero, htake]
  have hmaskpos := maskPositions_mask_eq v.basis_list k hk
  simp only [VectorValued._coordinate_nonfull]
  rw [hsliceb, hmk]
  simp only [Except.map]
  refine ⟨_, rfl, ?_, ?_, ?_, ?_, rfl, rfl⟩
  · show (maskSelect fd.coefficients _).cols = _
    rw [maskSelect]
    show (maskPositions _).length = _
    rw [hmaskpos, List.length_range]
  · intro s c hcl
    show (maskSelect fd.coefficients _).entry s c = _
    rw [maskSelect]
    show fd.coefficients.entry s ((maskPositions _).getD c 0) = _
    rw [hmaskpos, getD_range _ c hcl 0]
  · exact ⟨_, rfl, by rw [htake]⟩
  · show listSlice fd.coordinate_names 0 k = fd.coordinate_names.take k
    exact listSlice_zero fd.coordinate_names k

/-- A fitted depth distribution: maps a test data set to one depth score per
test sample (`predict`, cf. spec §6 external interfaces). -/
structure DepthDistribution (α : Type) where
  predict : α → List ℚ

/-- The sklearn not-fitted error raised by `check_is_fitted`. -/
inductive SkError
  | notFitted
deriving DecidableEq

/-- The `DDGTransformer` estimator state over test-data type `α` and
depth-method type `δ`: the configured depth methods plus the attributes set
by `fit` (`classes_`, `distributions_`), absent before fitting. -/
structure DDGTransformer (α δ : Type) where
  depth_methods : List δ
  classes_ : Option (List Nat)
  distributions_ : Option (List (DepthDistribution α))

/-- Embedding of `DDGTransformer.__init__`: keep the given list of depth methods if one
is supplied, otherwise use the single depth method; no fitted attributes
yet. -/
def DDGTransformer.mkNew {α δ : Type} (depth_method : δ) (depth_methods : Option (List δ)) :
    DDGTransformer α δ :=
  match depth_methods with
  | none => { depth_methods := [depth_method], classes_ := none, distributions_ := none }
  | some l => { depth_methods := l, classes_ := none, distributions_ := none }

/-- Embedding of `DDGTransformer.fit`: delegate to `_classifier_fit_distributions`
(modelled from the spec as an abstract argument, since that helper is not
under `src/`), store the classes and fitted distributions, return self. -/
def DDGTransformer.fit {α δ : Type} (t : DDGTransformer α δ)
    (classifierFitDistributions :
      α → List Nat → List δ → List Nat × List (DepthDistribution α))
    (X : α) (y : List Nat) : DDGTransformer α δ :=
  let cd := classifierFitDistributions X y t.depth_methods
  { t with classes_ := some cd.1, distributions_ := some cd.2 }

/-- Embedding of `np.transpose` of a rectangular 2-D list (a list of equal-length rows). -/
def npTranspose (m : List (List ℚ)) : List (List ℚ) :=
  (List.range (m.headD []).length).map fun j => m.map fun row => row.getD j 0

/-- Embedding of `DDGTransformer.transform`: `sklearn_check_is_fitted` raises the
not-fitted error when the fitted attributes are absent; otherwise stack the
fitted distributions' `predict` vectors column-wise. -/
def DDGTransformer.transform {α δ : Type} (t : DDGTransformer α δ) (X : α) :
    Except SkError (List (List ℚ)) :=
  match t.distributions_ with
  | none => .error .notFitted
  | some ds => .ok (npTranspose (ds.map fun d => d.predict X))

/-- C5: transform before fit raises the not-fitted error; after `fit(X, y)`,
`transform(X)` returns the column-wise stack of each fitted distribution's
`predict(X)` vector — an array of shape
(n_samples, number_of_fitted_distributions) whose entry `(r, c)` is the
`r`-th component of distribution `c`'s prediction. -/
theorem ddg_transform_spec {α δ : Type} (depth_method : δ) (depth_methods : Option (List δ))
    (classifierFitDistributions :
      α → List Nat → List δ → List Nat × List (DepthDistribution α))
    (X : α) (y : List Nat) (n : Nat)
    (hlen : ∀ d ∈ (classifierFitDistributions X y
        (DDGTransformer.mkNew (α := α) depth_method depth_methods).depth_methods).2,
      (d.predict X).length = n)
    (hne : 0 < (classifierFitDistributions X y
        (DDGTransformer.mkNew (α := α) depth_method depth_methods).depth_methods).2.length) :
    (DDGTransformer.mkNew (α := α) depth_method depth_methods).transform X =
      .error .notFitted ∧
    ∃ m, ((DDGTransformer.mkNew (α := α) depth_method depth_methods).fit
        classifierFitDistributions X y).transform X = .ok m ∧
      m.length = n ∧
      (∀ row ∈ m, row.length = (classifierFitDistributions X y
        (DDGTransformer.mkNew (α := α) depth_method depth_methods).depth_methods).2.length) ∧
      (∀ r c, r < n →
        c < (classifierFitDistributions X y
          (DDGTransformer.mkNew (α := α) depth_method depth_methods).depth_methods).2.length →
        (m.getD r []).getD c 0 =
          (((classifierFitDistributions X y
            (DDGTransformer.mkNew (α := α) depth_method depth_methods).depth_methods).2.getD c
              ⟨fun _ => []⟩).predict X).getD r 0) := by
  constructor
  · cases depth_methods with
    | none => rfl
    | some l => rfl
  · set ds := (classifierFitDistributions X y
      (DDGTransformer.mkNew (α := α) depth_method depth_methods).depth_methods).2 with hds
    have htr : ((DDGTransformer.mkNew (α := α) depth_method depth_methods).fit
        classifierFitDistributions X y).transform X =
        .ok (npTranspose (ds.map fun d => d.predict X)) := rfl
    refine ⟨_, htr, ?_, ?_, ?_⟩
    · rw [npTranspose, List.length_map, List.length_range]
      cases hd : ds with
      | nil =>
          rw [hd] at hne
          simp at hne
      | cons d₀ rest =>
          rw [List.map_cons, List.headD_cons]
          exact hlen d₀ (by rw [hd]; exact List.mem_cons_self d₀ rest)
    · intro row hrow
      rw [npTranspose] at hrow
      obtain ⟨j, -, hj⟩ := List.mem_map.mp hrow
      rw [← hj, List.length_map, List.length_map]
    · intro r c hr hcl
      rw [npTranspose]
      have hhead : ((ds.map fun d => d.predict X).headD []).length = n := by
        cases hd : ds with
        | nil =>
            rw [hd] at hne
            simp at hne
        | cons d₀ rest =>
            rw [List.map_cons, List.headD_cons]
            exact hlen d₀ (by rw [hd]; exact List.mem_cons_self d₀ rest)
      rw [getD_map_of_lt _ (List.range ((ds.map fun d => d.predict X).headD []).length) r
        (by rw [List.length_range, hhead]; exact hr) 0 []]
      rw [getD_range _ r (by rw [hhead]; exact hr) 0]
      rw [List.map_map]
      rw [getD_map_of_lt ((fun row => List.getD row r 0) ∘ fun d => d.predict X) ds c hcl
        ⟨fun _ => []⟩ 0]
      rfl

/-- The `FData` attributes used by `ParametricPlot`: domain and codomain
dimensions, the data matrix of shape (n_samples, n_points, dim_codomain) as
nested lists, the dataset name and the per-coordinate names. -/
structure FData where
  dim_domain : Nat
  dim_codomain : Nat
  data_matrix : List (List (List ℚ))
  dataset_name : Option String
  coordinate_names : List (Option String)

/-- Modelled from the spec (§3): `FData.concatenate(other,
as_coordinates=True)` (not under `src/`) stacks the two objects' codomains:
the result's codomain dimension is the sum of the inputs', the domain and
sample count are shared, and each sample's rows gain the second object's
coordinate columns. -/
def FData.concatenate (a b : FData) : FData :=
  { dim_domain := a.dim_domain,
    dim_codomain := a.dim_codomain + b.dim_codomain,
    data_matrix := List.zipWith (List.zipWith (· ++ ·)) a.data_matrix b.data_matrix,
    dataset_name := a.dataset_name,
    coordinate_names := a.coordinate_names ++ b.coordinate_names }

/-- The ParametricPlot object: the two constructor arguments plus the
`fd_final` instance attribute, unset until `plot` assigns it. -/
structure ParametricPlot where
  fdata1 : FData
  fdata2 : Option FData
  fd_final : Option FData

/-- Embedding of `ParametricPlot.__init__`. -/
def ParametricPlot.mkNew (fdata1 : FData) (fdata2 : Option FData) : ParametricPlot :=
  { fdata1 := fdata1, fdata2 := fdata2, fd_final := none }

/-- What a successful `plot` call draws: one `ax.plot(xs, ys)` line per
sample, the figure title and the two axis labels. -/
structure PlotOutput where
  lines : List (List ℚ × List ℚ)
  title : Option String
  xlabel : String
  ylabel : String

/-- The configuration error raised by `ParametricPlot.plot`. -/
inductive PlotError
  | valueError (msg : String)
deriving DecidableEq

/-- Embedding of `ParametricPlot.plot`: assign `self.fd_final` (the coordinate-wise
concatenation when `fdata2` is given, else `fdata1`), then require
`dim_domain == 1` and `dim_codomain == 2`; on success draw one line per
sample through the points `(data_matrix[:, 0], data_matrix[:, 1])`, set the
title from the dataset name and the axis labels from the coordinate names
(defaulting to "Function 1"/"Function 2"); otherwise raise the configuration
error.  The updated object is returned alongside the outcome, so that the
`fd_final` assignment is visible even on the error path. -/
def ParametricPlot.plot (p : ParametricPlot) : ParametricPlot × Except PlotError PlotOutput :=
  let fd_final := match p.fdata2 with
    | some f2 => p.fdata1.concatenate f2
    | none => p.fdata1
  let p₂ := { p with fd_final := some fd_final }
  if fd_final.dim_domain = 1 ∧ fd_final.dim_codomain = 2 then
    (p₂, .ok
      { lines := fd_final.data_matrix.map fun dm =>
          (dm.map fun row => row.getD 0 0, dm.map fun row => row.getD 1 0),
        title := fd_final.dataset_name,
        xlabel := (fd_final.coordinate_names.getD 0 none).getD "Function 1",
        ylabel := (fd_final.coordinate_names.getD 1 none).getD "Function 2" })
  else
    (p₂, .error (.valueError "Error in data arguments, codomain or domain is not correct."))

/-- C6: `plot` succeeds exactly when the (possibly concatenated) `fd_final`
has domain dimension 1 and codomain dimension 2, drawing one 2-D line per
sample through the points `(coordinate_0, coordinate_1)`; otherwise it
raises the configuration error.  In particular, for two data sets of domain
dimension 1 and codomain dimension 1 each, `ParametricPlot(a, b).plot()`
succeeds with one line per sample. -/
theorem parametric_plot_spec (p : ParametricPlot) (a b : FData)
    (ha1 : a.dim_domain = 1) (ha2 : a.dim_codomain = 1) (hb2 : b.dim_codomain = 1)
    (hsamples : b.data_matrix.length = a.data_matrix.length) :
    (((match p.fdata2 with
        | some f2 => p.fdata1.concatenate f2
        | none => p.fdata1) : FData).dim_domain = 1 ∧
      ((match p.fdata2 with
        | some f2 => p.fdata1.concatenate f2
        | none => p.fdata1) : FData).dim_codomain = 2 →
      ∃ out, (p.plot).2 = .ok out ∧
        out.lines = ((match p.fdata2 with
          | some f2 => p.fdata1.concatenate f2
          | none => p.fdata1) : FData).data_matrix.map (fun dm =>
            (dm.map fun row => row.getD 0 0, dm.map fun row => row.getD 1 0))) ∧
    (¬ (((match p.fdata2 with
        | some f2 => p.fdata1.concatenate f2
        | none => p.fdata1) : FData).dim_domain = 1 ∧
      ((match p.fdata2 with
        | some f2 => p.fdata1.concatenate f2
        | none => p.fdata1) : FData).dim_codomain = 2) →
      (p.plot).2 =
        .error (.valueError "Error in data arguments, codomain or domain is not correct.")) ∧
    (∃ out, ((ParametricPlot.mkNew a (some b)).plot).2 = .ok out ∧
      out.lines.length = a.data_matrix.length) := by
  refine ⟨?_, ?_, ?_⟩
  · intro hok
    rw [ParametricPlot.plot]
    simp only [if_pos hok]
    exact ⟨_, rfl, rfl⟩
  · intro hbad
    rw [ParametricPlot.plot]
    simp only [if_neg hbad]
  · have hok : (a.concatenate b).dim_domain = 1 ∧ (a.concatenate b).dim_codomain = 2 := by
      constructor
      · exact ha1
      · show a.dim_codomain + b.dim_codomain = 2
        omega
    rw [ParametricPlot.plot]
    simp only [ParametricPlot.mkNew, if_pos hok]
    refine ⟨_, rfl, ?_⟩
    show ((a.concatenate b).data_matrix.map _).length = a.data_matrix.length
    rw [List.length_map]
    show (List.zipWith _ a.data_matrix b.data_matrix).length = a.data_matrix.length
    rw [List.length_zipWith, hsamples, Nat.min_self]

/-- C10: every call to `plot` assigns the instance attribute `fd_final`
(the concatenation when `fdata2` is given, else `fdata1`) before the
domain/codomain validation, so `fd_final` is (re)assigned even on calls
that end by raising the configuration error. -/
theorem plot_assigns_fd_final (p : ParametricPlot) :
    ((p.plot).1).fd_final = some (match p.fdata2 with
      | some f2 => p.fdata1.concatenate f2
      | none => p.fdata1) ∧
    ((p.plot).1).fdata1 = p.fdata1 ∧ ((p.plot).1).fdata2 = p.fdata2 := by
  rw [ParametricPlot.plot]
  by_cases hok : (match p.fdata2 with
      | some f2 => p.fdata1.concatenate f2
      | none => p.fdata1 : FData).dim_domain = 1 ∧
    (match p.fdata2 with
      | some f2 => p.fdata1.concatenate f2
      | none => p.fdata1 : FData).dim_codomain = 2
  · simp only [if_pos hok]
    exact ⟨trivial, trivial, trivial⟩
  · simp only [if_neg hok]
    exact ⟨trivial, trivial, trivial⟩

/-- A concrete scalar child basis with three basis functions on `[0, 5]`. -/
def wB1 : ScalarBasis :=
  { n_basis := 3, dim_domain := 1, dim_codomain := 1, domain_range := [(0, 5)],
    evalFun := fun i t => t ^ i, gramFun := fun i j => (i : ℚ) + j }

/-- A concrete scalar child basis with two basis functions on `[0, 5]`. -/
def wB2 : ScalarBasis :=
  { n_basis := 2, dim_domain := 1, dim_codomain := 1, domain_range := [(0, 5)],
    evalFun := fun i t => t ^ i + 1, gramFun := fun i j => (i : ℚ) * j + 2 }

/-- The VectorValued basis built from `wB1` and `wB2`. -/
def wV : VectorValued :=
  { basis_list := [wB1, wB2], domain_range := wB1.domain_range,
    n_basis := ([wB1, wB2].map ScalarBasis.n_basis).sum }

theorem wV_mk : VectorValued.mk? [wB1, wB2] = .ok wV :=
  VectorValued.mk?_ok_of_valid wB1 [wB2] (by decide) (by decide)

/-- Witness for C1 at child 1, band row 0, point 0, both coordinate slots. -/
theorem evaluate_band_structure_witness :
    ((VectorValued._evaluate wV [0, 1, 2]).d0 = wV.n_basis ∧
      (VectorValued._evaluate wV [0, 1, 2]).d1 = ([(0 : ℚ), 1, 2] : List ℚ).length ∧
      (VectorValued._evaluate wV [0, 1, 2]).d2 = wV.dim_codomain ∧
      (VectorValued._evaluate wV [0, 1, 2]).entry
          (offsetAt ([wB1, wB2].map ScalarBasis.n_basis) 1 + 0) 0 1 =
        if 1 = 1 then (([wB1, wB2].getD 1 scalarBasisZero).evaluate [0, 1, 2]).entry 0 0 0
        else 0) ∧
    ((VectorValued._evaluate wV [0, 1, 2]).entry
          (offsetAt ([wB1, wB2].map ScalarBasis.n_basis) 1 + 0) 0 0 =
        if 0 = 1 then (([wB1, wB2].getD 1 scalarBasisZero).evaluate [0, 1, 2]).entry 0 0 0
        else 0) :=
  ⟨evaluate_band_structure [wB1, wB2] wV wV_mk [0, 1, 2] 1 (by decide) 0 (by decide) 0 1,
   (evaluate_band_structure [wB1, wB2] wV wV_mk [0, 1, 2] 1 (by decide) 0 (by decide) 0 0).2.2.2⟩

/-- Witness for C3 at the off-diagonal block (0, 1) and a diagonal block. -/
theorem gram_matrix_block_diag_witness :
    ((VectorValued._gram_matrix wV).rows = wV.n_basis ∧
      (VectorValued._gram_matrix wV).cols = wV.n_basis ∧
      (VectorValued._gram_matrix wV).entry
          (offsetAt ([wB1, wB2].map ScalarBasis.n_basis) 0 + 1)
          (offsetAt ([wB1, wB2].map ScalarBasis.n_basis) 1 + 0) =
        if 0 = 1 then ([wB1, wB2].getD 0 scalarBasisZero).gramFun 1 0 else 0) ∧
    ((VectorValued._gram_matrix wV).entry
          (offsetAt ([wB1, wB2].map ScalarBasis.n_basis) 1 + 1)
          (offsetAt ([wB1, wB2].map ScalarBasis.n_basis) 1 + 1) =
        if 1 = 1 then ([wB1, wB2].getD 1 scalarBasisZero).gramFun 1 1 else 0) :=
  ⟨gram_matrix_block_diag [wB1, wB2] wV wV_mk 0 1 (by decide) (by decide) 1 0
      (by decide) (by decide),
   (gram_matrix_block_diag [wB1, wB2] wV wV_mk 1 1 (by decide) (by decide) 1 1
      (by decide) (by decide)).2.2⟩

/-- A child derivative operator for the C2 witness: keep each child basis
and its coefficient block unchanged. -/
def wCD : ScalarBasis → Arr2 → Nat → ScalarBasis × Arr2 := fun b c _ => (b, c)

/-- A concrete coefficient matrix of shape (1, 5). -/
def wCoefs : Arr2 := ⟨1, 5, fun _ c => (c : ℚ)⟩

/-- The result of differentiating `(wV, wCoefs)` with `wCD`. -/
def wDP : VectorValued × Arr2 :=
  (VectorValued._derivative_basis_and_coefs wCD wV wCoefs 1).toOption.getD (wV, arr2Zero)

/-- Witness for C2 at coordinate 1, sample 0 and point 0. -/
theorem derivative_splits_and_commutes_witness :
    wDP.1.basis_list = (List.range wV.basis_list.length).map
        (fun t => (wCD (wV.basis_list.getD t scalarBasisZero) (childBlock wV wCoefs t) 1).1) ∧
    (∀ c, c <
        ((wCD (wV.basis_list.getD 1 scalarBasisZero) (childBlock wV wCoefs 1) 1).1).n_basis →
      wDP.2.entry 0 (offsetAt (wDP.1.basis_list.map ScalarBasis.n_basis) 1 + c) =
        ((wCD (wV.basis_list.getD 1 scalarBasisZero) (childBlock wV wCoefs 1) 1).2).entry 0 c) ∧
    repEval wDP.1 wDP.2 [0, 1, 2] 0 0 1 =
      scalarRepEval
        (wCD (wV.basis_list.getD 1 scalarBasisZero) (childBlock wV wCoefs 1) 1).1
        (wCD (wV.basis_list.getD 1 scalarBasisZero) (childBlock wV wCoefs 1) 1).2 [0, 1, 2] 0 0 :=
  derivative_splits_and_commutes wCD wV wCoefs 1 wDP.1 wDP.2 (by decide)
    (by decide) rfl 1 (by decide) [0, 1, 2] 0 0

/-- A concrete representation over `wV` for the C4 witness. -/
def wFD : FDataBasis :=
  { basis := .vector wV, coefficients := wCoefs,
    coordinate_names := [some "x", some "y"], dataset_name := some "data",
    sample_names := [some "s0"] }

/-- Witness for C4 with the prefix `[0, 1)`. -/
theorem coordinate_nonfull_prefix_witness :
    ∃ fd₂, VectorValued._coordinate_nonfull wV wFD (.rng 0 1) = .ok fd₂ ∧
      fd₂.coefficients.cols = offsetAt (wV.basis_list.map ScalarBasis.n_basis) 1 ∧
      (∀ s c, c < offsetAt (wV.basis_list.map ScalarBasis.n_basis) 1 →
        fd₂.coefficients.entry s c = wFD.coefficients.entry s c) ∧
      (∃ nv, fd₂.basis = .vector nv ∧ nv.basis_list = wV.basis_list.take 1) ∧
      fd₂.coordinate_names = wFD.coordinate_names.take 1 ∧
      fd₂.dataset_name = wFD.dataset_name ∧
      fd₂.sample_names = wFD.sample_names :=
  coordinate_nonfull_prefix wV wFD 1 (by decide) (by decide) (by decide) (by decide)

/-- A concrete fitted depth distribution over `Nat`-coded data sets. -/
def wDist : DepthDistribution Nat := ⟨fun _ => [(1 : ℚ) / 2, 1 / 3, 1 / 4]⟩

/-- A concrete stand-in for `_classifier_fit_distributions`, fitting two
distributions. -/
def wFitD : Nat → List Nat → List Nat → List Nat × List (DepthDistribution Nat) :=
  fun _ _ _ => ([0, 1], [wDist, wDist])

/-- Witness for C5: three samples, two fitted distributions. -/
theorem ddg_transform_spec_witness :
    (DDGTransformer.mkNew (α := Nat) 0 none).transform 7 = .error .notFitted ∧
    ∃ m, ((DDGTransformer.mkNew (α := Nat) 0 none).fit wFitD 7 [0, 1, 1]).transform 7 =
        .ok m ∧
      m.length = 3 ∧
      (∀ row ∈ m, row.length =
        (wFitD 7 [0, 1, 1] (DDGTransformer.mkNew (α := Nat) 0 none).depth_methods).2.length) ∧
      (∀ r c, r < 3 →
        c < (wFitD 7 [0, 1, 1] (DDGTransformer.mkNew (α := Nat) 0 none).depth_methods).2.length →
        (m.getD r []).getD c 0 =
          (((wFitD 7 [0, 1, 1]
            (DDGTransformer.mkNew (α := Nat) 0 none).depth_methods).2.getD c
              ⟨fun _ => []⟩).predict 7).getD r 0) :=
  ddg_transform_spec 0 none wFitD 7 [0, 1, 1] 3 (by decide) (by decide)

/-- Two concrete functional data sets of codomain dimension 1 each. -/
def wFA : FData := ⟨1, 1, [[[1], [2]], [[3], [4]]], some "A", [some "x"]⟩

def wFB : FData := ⟨1, 1, [[[5], [6]], [[7], [8]]], none, [none]⟩

/-- Witness for C6 at the two-argument configuration. -/
theorem parametric_plot_spec_witness :
    (((match (ParametricPlot.mk wFA (some wFB) none).fdata2 with
        | some f2 => (ParametricPlot.mk wFA (some wFB) none).fdata1.concatenate f2
        | none => (ParametricPlot.mk wFA (some wFB) none).fdata1) : FData).dim_domain = 1 ∧
      ((match (ParametricPlot.mk wFA (some wFB) none).fdata2 with
        | some f2 => (ParametricPlot.mk wFA (some wFB) none).fdata1.concatenate f2
        | none => (ParametricPlot.mk wFA (some wFB) none).fdata1) : FData).dim_codomain = 2 →
      ∃ out, ((ParametricPlot.mk wFA (some wFB) none).plot).2 = .ok out ∧
        out.lines = ((match (ParametricPlot.mk wFA (some wFB) none).fdata2 with
          | some f2 => (ParametricPlot.mk wFA (some wFB) none).fdata1.concatenate f2
          | none => (ParametricPlot.mk wFA (some wFB) none).fdata1) : FData).data_matrix.map
            (fun dm =>
              (dm.map fun row => row.getD 0 0, dm.map fun row => row.getD 1 0))) ∧
    (¬ (((match (ParametricPlot.mk wFA (some wFB) none).fdata2 with
        | some f2 => (ParametricPlot.mk wFA (some wFB) none).fdata1.concatenate f2
        | none => (ParametricPlot.mk wFA (some wFB) none).fdata1) : FData).dim_domain = 1 ∧
      ((match (ParametricPlot.mk wFA (some wFB) none).fdata2 with
        | some f2 => (ParametricPlot.mk wFA (some wFB) none).fdata1.concatenate f2
        | none => (ParametricPlot.mk wFA (some wFB) none).fdata1) : FData).dim_codomain = 2) →
      ((ParametricPlot.mk wFA (some wFB) none).plot).2 =
        .error (.valueError "Error in data arguments, codomain or domain is not correct.")) ∧
    (∃ out, ((ParametricPlot.mkNew wFA (some wFB)).plot).2 = .ok out ∧
      out.lines.length = wFA.data_matrix.length) :=
  parametric_plot_spec (ParametricPlot.mk wFA (some wFB) none) wFA wFB
    (by decide) (by decide) (by decide) (by decide)

/-- Witness for C8 over the two concrete children. -/
theorem vector_valued_attributes_witness :
    wV.n_basis = ([wB1, wB2].map ScalarBasis.n_basis).sum ∧
    wV.dim_codomain = [wB1, wB2].length ∧
    wV.domain_range = ([wB1, wB2].headD scalarBasisZero).domain_range ∧
    1 ≤ [wB1, wB2].length :=
  vector_valued_attributes [wB1, wB2] wV wV_mk
